import Mathlib

/-!
Verification of the ads.txt analysis service (Go repository).

Shallow embedding of the rate-limiter (ratelimit package), the batch
analysis service (internal/domainAnalysis/analysis.go) and the HTTP batch
handler.  Wall-clock time is modelled as rational seconds; Go int64 / int
become Lean integers.  Mutexes serialise every access in the source, so
state is threaded explicitly.
-/

namespace AdsTxt

/-- Truncation toward zero on rationals.  This is the semantics of the Go
conversion in TokenBucket.refill, where the float64 product
elapsed * refillRate is converted to int64. -/
def truncQ (q : ℚ) : ℤ := if 0 ≤ q then ⌊q⌋ else ⌈q⌉

/-- State of a ratelimit.TokenBucket.  The mutex is not modelled (all
accesses in the source hold it); lastRefill is an absolute time in
seconds. -/
structure TokenBucket where
  capacity : ℤ
  tokens : ℤ
  refillRate : ℤ
  lastRefill : ℚ
deriving Repr, DecidableEq

/-- NewTokenBucket: starts with a full bucket and lastRefill = now. -/
def NewTokenBucket (capacity refillRate : ℤ) (now : ℚ) : TokenBucket :=
  { capacity := capacity
    tokens := capacity
    refillRate := refillRate
    lastRefill := now }

/-- TokenBucket.refill: adds floor-truncated whole tokens accrued since
lastRefill, capped at capacity; lastRefill advances only when at least one
whole token was added. -/
def TokenBucket.refill (tb : TokenBucket) (now : ℚ) : TokenBucket :=
  let elapsed : ℚ := now - tb.lastRefill
  let tokensToAdd : ℤ := truncQ (elapsed * (tb.refillRate : ℚ))
  if 0 < tokensToAdd then
    { tb with tokens := min tb.capacity (tb.tokens + tokensToAdd), lastRefill := now }
  else
    tb

/-- TokenBucket.Allow: refill, then consume one token when available.
Returns the boolean decision and the bucket state after the call. -/
def TokenBucket.Allow (tb : TokenBucket) (now : ℚ) : Bool × TokenBucket :=
  let tb2 := tb.refill now
  if 0 < tb2.tokens then (true, { tb2 with tokens := tb2.tokens - 1 })
  else (false, tb2)

/-- Body of TwoTierRateLimiter.returnGlobalToken, acting on the bucket it
mutates: increment tokens unless already at capacity. -/
def returnToken (tb : TokenBucket) : TokenBucket :=
  if tb.tokens < tb.capacity then { tb with tokens := tb.tokens + 1 } else tb

/-- Spec-side transcription for claim C1 (refinement target), written from
the spec sentence: tokensToAdd is the floor of elapsed seconds times
refillRate; when positive it is added capped at capacity and lastRefill
advances, otherwise the state is untouched; then the call admits and
decrements exactly when tokens is positive, and on denial returns the
(post-refill) state unchanged. -/
def TokenBucket.AllowSpecC1 (tb : TokenBucket) (now : ℚ) : Bool × TokenBucket :=
  let tokensToAdd : ℤ := ⌊(now - tb.lastRefill) * (tb.refillRate : ℚ)⌋
  let mid : TokenBucket :=
    if 0 < tokensToAdd then
      { tb with tokens := min tb.capacity (tb.tokens + tokensToAdd), lastRefill := now }
    else tb
  if 0 < mid.tokens then (true, { mid with tokens := mid.tokens - 1 })
  else (false, mid)

/-- Truncation toward zero agrees with floor on nonnegative arguments. -/
theorem truncQ_eq_floor {q : ℚ} (h : 0 ≤ q) : truncQ q = ⌊q⌋ := by
  simp [truncQ, h]

/-- C1: TokenBucket.Allow first computes tokensToAdd as the floor of
elapsed seconds times refillRate; when positive it adds them capped at
capacity and advances lastRefill, otherwise lastRefill is unchanged; it
then admits and decrements exactly when tokens is positive, and denies
leaving tokens and lastRefill unchanged otherwise.  Stated as agreement
with the spec-side transcription, under monotone time and a nonnegative
refill rate. -/
theorem tokenBucket_allow_matches_spec (tb : TokenBucket) (now : ℚ)
    (htime : tb.lastRefill ≤ now) (hrate : 0 ≤ tb.refillRate) :
    tb.Allow now = tb.AllowSpecC1 now := by
  have helapsed : (0 : ℚ) ≤ (now - tb.lastRefill) * (tb.refillRate : ℚ) := by
    have h1 : (0 : ℚ) ≤ now - tb.lastRefill := by linarith
    have h2 : (0 : ℚ) ≤ (tb.refillRate : ℚ) := by exact_mod_cast hrate
    exact mul_nonneg h1 h2
  simp only [TokenBucket.Allow, TokenBucket.AllowSpecC1, TokenBucket.refill,
    truncQ_eq_floor helapsed]

/-- Witness for C1 at a concrete bucket: capacity 5, 2 tokens, rate 3,
last refill at time 0, call at time 2. -/
theorem tokenBucket_allow_matches_spec_witness :
    (⟨5, 2, 3, 0⟩ : TokenBucket).lastRefill ≤ 2 ∧ (0 : ℤ) ≤ (⟨5, 2, 3, 0⟩ : TokenBucket).refillRate ∧
    (⟨5, 2, 3, 0⟩ : TokenBucket).Allow 2 = (⟨5, 2, 3, 0⟩ : TokenBucket).AllowSpecC1 2 :=
  ⟨by norm_num, by norm_num,
    tokenBucket_allow_matches_spec ⟨5, 2, 3, 0⟩ 2 (by norm_num) (by norm_num)⟩

/-- An operation applied to a single bucket: an Allow call at some absolute
time, or a compensation increment (the body of returnGlobalToken). -/
inductive BucketOp where
  | allowAt (now : ℚ)
  | compensate
deriving Repr, DecidableEq

/-- Apply one operation to a bucket, keeping the post-call state. -/
def TokenBucket.applyOp (tb : TokenBucket) : BucketOp → TokenBucket
  | .allowAt now => (tb.Allow now).2
  | .compensate => returnToken tb

/-- Run a sequence of operations on a bucket. -/
def TokenBucket.runOps (tb : TokenBucket) (ops : List BucketOp) : TokenBucket :=
  ops.foldl TokenBucket.applyOp tb

/-- The bucket invariant of the spec: tokens stays between 0 and
capacity. -/
def TokenBucket.Inv (tb : TokenBucket) : Prop :=
  0 ≤ tb.tokens ∧ tb.tokens ≤ tb.capacity

/-- refill never changes the capacity field. -/
theorem TokenBucket.capacity_refill (tb : TokenBucket) (now : ℚ) :
    (tb.refill now).capacity = tb.capacity := by
  unfold TokenBucket.refill
  by_cases h : 0 < truncQ ((now - tb.lastRefill) * (tb.refillRate : ℚ)) <;> simp [h]

/-- Allow never changes the capacity field. -/
theorem TokenBucket.capacity_allow (tb : TokenBucket) (now : ℚ) :
    ((tb.Allow now).2).capacity = tb.capacity := by
  unfold TokenBucket.Allow
  by_cases h : 0 < (tb.refill now).tokens <;>
    simp [h, TokenBucket.capacity_refill]

/-- Every single operation keeps the capacity field. -/
theorem TokenBucket.capacity_applyOp (tb : TokenBucket) (op : BucketOp) :
    (tb.applyOp op).capacity = tb.capacity := by
  cases op with
  | allowAt now => exact tb.capacity_allow now
  | compensate =>
      unfold TokenBucket.applyOp returnToken
      by_cases h : tb.tokens < tb.capacity <;> simp [h]

/-- refill preserves the invariant. -/
theorem TokenBucket.inv_refill (tb : TokenBucket) (now : ℚ) (h : tb.Inv) :
    (tb.refill now).Inv := by
  obtain ⟨h0, h1⟩ := h
  unfold TokenBucket.refill
  by_cases hadd : 0 < truncQ ((now - tb.lastRefill) * (tb.refillRate : ℚ))
  · simp only [hadd, if_pos]
    constructor
    · simp only [le_min_iff]
      constructor
      · linarith
      · linarith
    · simp [TokenBucket.Inv]
  · simpa [hadd] using And.intro h0 h1

/-- Allow preserves the invariant. -/
theorem TokenBucket.inv_allow (tb : TokenBucket) (now : ℚ) (h : tb.Inv) :
    ((tb.Allow now).2).Inv := by
  have hr := tb.inv_refill now h
  unfold TokenBucket.Allow
  by_cases htok : 0 < (tb.refill now).tokens
  · obtain ⟨h0, h1⟩ := hr
    simp only [htok, if_pos, TokenBucket.Inv]
    refine ⟨?_, ?_⟩ <;> simp <;> omega
  · simpa [htok] using hr

/-- Each operation preserves the invariant. -/
theorem TokenBucket.inv_applyOp (tb : TokenBucket) (op : BucketOp) (h : tb.Inv) :
    (tb.applyOp op).Inv := by
  cases op with
  | allowAt now => exact tb.inv_allow now h
  | compensate =>
      obtain ⟨h0, h1⟩ := h
      unfold TokenBucket.applyOp returnToken
      by_cases hlt : tb.tokens < tb.capacity
      · simp only [hlt, if_pos, TokenBucket.Inv]
        refine ⟨?_, ?_⟩ <;> omega
      · simpa [hlt, TokenBucket.Inv] using And.intro h0 h1

/-- Running any operation sequence preserves the invariant together with
the capacity field. -/
theorem TokenBucket.inv_runOps (ops : List BucketOp) (tb : TokenBucket) (h : tb.Inv) :
    (tb.runOps ops).Inv ∧ (tb.runOps ops).capacity = tb.capacity := by
  induction ops generalizing tb with
  | nil => exact ⟨h, rfl⟩
  | cons op rest ih =>
      have := ih (tb.applyOp op) (tb.inv_applyOp op h)
      simp only [TokenBucket.runOps, List.foldl_cons] at *
      exact ⟨this.1, this.2.trans (tb.capacity_applyOp op)⟩

/-- C2: for any bucket created with capacity C at least 0, any sequence of
Allow calls (arbitrary elapsed time) interleaved with compensation
increments keeps 0 at most tokens and tokens at most C; in particular
compensation never pushes tokens above capacity. -/
theorem tokenBucket_invariant (C r : ℤ) (hC : 0 ≤ C) (t0 : ℚ) (ops : List BucketOp) :
    0 ≤ ((NewTokenBucket C r t0).runOps ops).tokens ∧
    ((NewTokenBucket C r t0).runOps ops).tokens ≤ C := by
  have hinv : (NewTokenBucket C r t0).Inv := ⟨hC, le_refl _⟩
  have h := TokenBucket.inv_runOps ops (NewTokenBucket C r t0) hinv
  have hcap : ((NewTokenBucket C r t0).runOps ops).capacity = C := h.2
  exact ⟨h.1.1, h.1.2.trans_eq hcap⟩

/-- Witness for C2: capacity 2, rate 1, with a consume, a compensation and
a later consume. -/
theorem tokenBucket_invariant_witness :
    (0 : ℤ) ≤ 2 ∧
    (0 ≤ ((NewTokenBucket 2 1 0).runOps
        [BucketOp.allowAt 0, BucketOp.compensate, BucketOp.allowAt (1/2)]).tokens ∧
      ((NewTokenBucket 2 1 0).runOps
        [BucketOp.allowAt 0, BucketOp.compensate, BucketOp.allowAt (1/2)]).tokens ≤ 2) :=
  ⟨by norm_num, tokenBucket_invariant 2 1 (by norm_num) 0 _⟩

/-- Run a sequence of Allow calls at the given absolute times, collecting
the decisions and the final bucket state. -/
def TokenBucket.applyAllows : TokenBucket → List ℚ → List Bool × TokenBucket
  | tb, [] => ([], tb)
  | tb, t :: ts =>
    let r := tb.Allow t
    let rest := TokenBucket.applyAllows r.2 ts
    (r.1 :: rest.1, rest.2)

/-- A refill at the lastRefill instant is a no-op. -/
theorem TokenBucket.refill_lastRefill (tb : TokenBucket) :
    tb.refill tb.lastRefill = tb := by
  simp [TokenBucket.refill, truncQ]

/-- An Allow call with no elapsed time only consumes. -/
theorem TokenBucket.allow_lastRefill (tb : TokenBucket) :
    tb.Allow tb.lastRefill =
      if 0 < tb.tokens then (true, { tb with tokens := tb.tokens - 1 })
      else (false, tb) := by
  simp [TokenBucket.Allow, TokenBucket.refill_lastRefill]

/-- Unfolding one Allow call at the head of a run. -/
theorem TokenBucket.applyAllows_cons (tb : TokenBucket) (t : ℚ) (ts : List ℚ) :
    tb.applyAllows (t :: ts) =
      ((tb.Allow t).1 :: ((tb.Allow t).2.applyAllows ts).1,
        ((tb.Allow t).2.applyAllows ts).2) := rfl

/-- Draining: a bucket holding exactly n tokens admits n consecutive calls
with no elapsed time and ends empty. -/
theorem TokenBucket.applyAllows_drain (n : ℕ) (tb : TokenBucket) (t : ℚ)
    (ht : t = tb.lastRefill) (h : tb.tokens = (n : ℤ)) :
    tb.applyAllows (List.replicate n t) =
      (List.replicate n true, { tb with tokens := 0 }) := by
  induction n generalizing tb with
  | zero =>
      cases tb
      simp only [Nat.cast_zero] at h
      simp [TokenBucket.applyAllows, h]
  | succ n ih =>
      have hpos : 0 < tb.tokens := by omega
      have hstep : tb.Allow t = (true, { tb with tokens := tb.tokens - 1 }) := by
        rw [ht, TokenBucket.allow_lastRefill, if_pos hpos]
      have ih2 := ih { tb with tokens := tb.tokens - 1 }
        (by rw [ht]) (by simp; omega)
      rw [List.replicate_succ, TokenBucket.applyAllows_cons, hstep]
      simp only [ih2, List.replicate_succ]

/-- A refill strictly before one whole token has accrued is a no-op. -/
theorem TokenBucket.refill_small (tb : TokenBucket) (t : ℚ)
    (h0 : 0 ≤ (t - tb.lastRefill) * (tb.refillRate : ℚ))
    (h1 : (t - tb.lastRefill) * (tb.refillRate : ℚ) < 1) :
    tb.refill t = tb := by
  have hz : truncQ ((t - tb.lastRefill) * (tb.refillRate : ℚ)) = 0 := by
    rw [truncQ_eq_floor h0]
    exact Int.floor_eq_zero_iff.mpr ⟨h0, h1⟩
  simp [TokenBucket.refill, hz]

/-- An empty bucket called again less than 1/refillRate seconds after its
last refill denies and is left entirely unchanged. -/
theorem TokenBucket.allow_starve (tb : TokenBucket) (t : ℚ)
    (htok : tb.tokens = 0) (hrate : 0 < tb.refillRate)
    (hle : tb.lastRefill ≤ t)
    (hlt : t - tb.lastRefill < 1 / (tb.refillRate : ℚ)) :
    tb.Allow t = (false, tb) := by
  have hrq : (0 : ℚ) < (tb.refillRate : ℚ) := by exact_mod_cast hrate
  have h0 : 0 ≤ (t - tb.lastRefill) * (tb.refillRate : ℚ) :=
    mul_nonneg (by linarith) (le_of_lt hrq)
  have h1 : (t - tb.lastRefill) * (tb.refillRate : ℚ) < 1 :=
    (lt_div_iff₀ hrq).mp hlt
  rw [TokenBucket.Allow]
  simp [TokenBucket.refill_small tb t h0 h1, htok]

/-- An empty bucket denies every call in a sequence whose times all fall
less than 1/refillRate seconds after the last refill, without any state
change. -/
theorem TokenBucket.applyAllows_starve (ts : List ℚ) (tb : TokenBucket)
    (htok : tb.tokens = 0) (hrate : 0 < tb.refillRate)
    (hts : ∀ t ∈ ts, tb.lastRefill ≤ t ∧ t - tb.lastRefill < 1 / (tb.refillRate : ℚ)) :
    tb.applyAllows ts = (List.replicate ts.length false, tb) := by
  induction ts with
  | nil => simp [TokenBucket.applyAllows]
  | cons t ts ih =>
      have ht := hts t (by simp)
      have hstep := TokenBucket.allow_starve tb t htok hrate ht.1 ht.2
      have ihr := ih fun u hu => hts u (by simp [hu])
      simp only [TokenBucket.applyAllows, hstep, ihr, List.length_cons,
        List.replicate_succ]

/-- An empty bucket with positive capacity admits again once at least
1/refillRate seconds have elapsed since the last refill. -/
theorem TokenBucket.allow_recover (tb : TokenBucket) (t : ℚ)
    (hcap : 1 ≤ tb.capacity) (htok : tb.tokens = 0) (hrate : 0 < tb.refillRate)
    (ht : 1 / (tb.refillRate : ℚ) ≤ t - tb.lastRefill) :
    (tb.Allow t).1 = true := by
  have hrq : (0 : ℚ) < (tb.refillRate : ℚ) := by exact_mod_cast hrate
  have h1 : (1 : ℚ) ≤ (t - tb.lastRefill) * (tb.refillRate : ℚ) :=
    (div_le_iff₀ hrq).mp ht
  have h0 : 0 ≤ (t - tb.lastRefill) * (tb.refillRate : ℚ) := by linarith
  have hadd : 1 ≤ truncQ ((t - tb.lastRefill) * (tb.refillRate : ℚ)) := by
    rw [truncQ_eq_floor h0]
    exact Int.le_floor.mpr (by exact_mod_cast h1)
  rw [TokenBucket.Allow, TokenBucket.refill]
  simp only [if_pos (by omega : 0 < truncQ ((t - tb.lastRefill) * (tb.refillRate : ℚ)))]
  have : 0 < min tb.capacity (tb.tokens + truncQ ((t - tb.lastRefill) * (tb.refillRate : ℚ))) := by
    rw [htok]
    omega
  simp [this]

/-- Splitting a run of Allow calls. -/
theorem TokenBucket.applyAllows_append (ts1 ts2 : List ℚ) (tb : TokenBucket) :
    tb.applyAllows (ts1 ++ ts2) =
      ((tb.applyAllows ts1).1 ++ ((tb.applyAllows ts1).2.applyAllows ts2).1,
        ((tb.applyAllows ts1).2.applyAllows ts2).2) := by
  induction ts1 generalizing tb with
  | nil => simp [TokenBucket.applyAllows]
  | cons t ts ih => simp [TokenBucket.applyAllows, ih]

/-- C5: a fresh bucket of capacity C admits exactly C consecutive calls
with no elapsed time, then denies; it keeps denying every further call
made less than 1/refillRate seconds after the last refill, and admits
again (for positive capacity) once at least 1/refillRate seconds have
elapsed. -/
theorem tokenBucket_saturation (C : ℕ) (rate : ℤ) (t0 : ℚ) (hrate : 0 < rate) :
    ((NewTokenBucket (C : ℤ) rate t0).applyAllows (List.replicate C t0)).1
        = List.replicate C true
    ∧ ((NewTokenBucket (C : ℤ) rate t0).applyAllows (List.replicate (C + 1) t0)).1
        = List.replicate C true ++ [false]
    ∧ (∀ ts : List ℚ, (∀ t ∈ ts, t0 ≤ t ∧ t - t0 < 1 / (rate : ℚ)) →
        (((NewTokenBucket (C : ℤ) rate t0).applyAllows
            (List.replicate (C + 1) t0)).2.applyAllows ts).1
          = List.replicate ts.length false)
    ∧ (∀ t : ℚ, 1 ≤ C → 1 / (rate : ℚ) ≤ t - t0 →
        ((((NewTokenBucket (C : ℤ) rate t0).applyAllows
            (List.replicate (C + 1) t0)).2).Allow t).1 = true) := by
  have hdrain : (NewTokenBucket (C : ℤ) rate t0).applyAllows (List.replicate C t0)
      = (List.replicate C true, ⟨(C : ℤ), 0, rate, t0⟩) :=
    TokenBucket.applyAllows_drain C (NewTokenBucket (C : ℤ) rate t0) t0 rfl rfl
  have hfull :
      (NewTokenBucket (C : ℤ) rate t0).applyAllows (List.replicate (C + 1) t0)
        = (List.replicate C true ++ [false], ⟨(C : ℤ), 0, rate, t0⟩) := by
    have hsplit : List.replicate (C + 1) t0
        = List.replicate C t0 ++ List.replicate 1 t0 := by
      rw [← List.replicate_add]
    rw [hsplit, TokenBucket.applyAllows_append, hdrain]
    have hstep : (⟨(C : ℤ), 0, rate, t0⟩ : TokenBucket).applyAllows (List.replicate 1 t0)
        = ([false], ⟨(C : ℤ), 0, rate, t0⟩) := by
      have h := TokenBucket.allow_lastRefill (⟨(C : ℤ), 0, rate, t0⟩ : TokenBucket)
      simp only [List.replicate_one, TokenBucket.applyAllows]
      simp at h
      simp [h]
    rw [hstep]
  refine ⟨by rw [hdrain], by rw [hfull], ?_, ?_⟩
  · intro ts hts
    rw [hfull]
    have h := TokenBucket.applyAllows_starve ts (⟨(C : ℤ), 0, rate, t0⟩ : TokenBucket)
      rfl hrate hts
    rw [h]
  · intro t hC ht
    rw [hfull]
    exact TokenBucket.allow_recover (⟨(C : ℤ), 0, rate, t0⟩ : TokenBucket) t
      (by show (1 : ℤ) ≤ (C : ℤ); exact_mod_cast hC) rfl hrate ht

/-- Witness for C5 at capacity 2, rate 1, start time 0. -/
theorem tokenBucket_saturation_witness :
    (0 : ℤ) < 1 ∧
    ((NewTokenBucket (2 : ℤ) 1 0).applyAllows (List.replicate 2 0)).1
      = List.replicate 2 true :=
  ⟨by norm_num, (tokenBucket_saturation 2 1 0 (by norm_num)).1⟩

/-- Lookup in the identifier bucket registry (sync.Map, modelled as an
association list). -/
def lookupBucket : List (String × TokenBucket) → String → Option TokenBucket
  | [], _ => none
  | (k, b) :: rest, key => if k = key then some b else lookupBucket rest key

/-- Store a bucket under a key (overwrites an existing entry, appends a new
one otherwise). -/
def setBucket : List (String × TokenBucket) → String → TokenBucket → List (String × TokenBucket)
  | [], key, b => [(key, b)]
  | (k, b0) :: rest, key, b =>
    if k = key then (key, b) :: rest else (k, b0) :: setBucket rest key b

/-- State of a ratelimit.TwoTierRateLimiter: one global bucket plus the
per-identifier registry. -/
structure TwoTierRateLimiter where
  globalBucket : TokenBucket
  ipBuckets : List (String × TokenBucket)
  perIPCapacity : ℤ
  perIPRate : ℤ
deriving Repr, DecidableEq

/-- NewTwoTierRateLimiter with an empty registry (the cleanup goroutine is
not modelled; it only evicts idle buckets). -/
def NewTwoTierRateLimiter (globalCapacity globalRate perIPCapacity perIPRate : ℤ)
    (now : ℚ) : TwoTierRateLimiter :=
  { globalBucket := NewTokenBucket globalCapacity globalRate now
    ipBuckets := []
    perIPCapacity := perIPCapacity
    perIPRate := perIPRate }

/-- getOrCreateIPBucket: return the identifier's bucket, creating and
storing a fresh full one on first access. -/
def TwoTierRateLimiter.getOrCreateIPBucket (trl : TwoTierRateLimiter)
    (clientIP : String) (now : ℚ) : TokenBucket × TwoTierRateLimiter :=
  match lookupBucket trl.ipBuckets clientIP with
  | some b => (b, trl)
  | none =>
    let newBucket := NewTokenBucket trl.perIPCapacity trl.perIPRate now
    (newBucket, { trl with ipBuckets := setBucket trl.ipBuckets clientIP newBucket })

/-- returnGlobalToken: compensation step, incrementing the global bucket
capped at its capacity. -/
def TwoTierRateLimiter.returnGlobalToken (trl : TwoTierRateLimiter) : TwoTierRateLimiter :=
  { trl with globalBucket := returnToken trl.globalBucket }

/-- TwoTierRateLimiter.Allow: global bucket first; on global denial return
false without touching the registry; otherwise get-or-create the
identifier bucket, call its Allow (its new state is stored back, the Go
bucket being mutated in place), and compensate the global bucket when the
identifier tier denies. -/
def TwoTierRateLimiter.Allow (trl : TwoTierRateLimiter) (clientIP : String)
    (now : ℚ) : Bool × TwoTierRateLimiter :=
  let g := trl.globalBucket.Allow now
  if g.1 = false then (false, { trl with globalBucket := g.2 })
  else
    let trl1 : TwoTierRateLimiter := { trl with globalBucket := g.2 }
    let gc := trl1.getOrCreateIPBucket clientIP now
    let ipRes := gc.1.Allow now
    let trl2 : TwoTierRateLimiter := { gc.2 with ipBuckets := setBucket gc.2.ipBuckets clientIP ipRes.2 }
    if ipRes.1 then (true, trl2) else (false, trl2.returnGlobalToken)

/-- C4: whenever the global bucket denies, TwoTierRateLimiter.Allow
returns false at once with only the global bucket advanced by its own
refill; the per-identifier registry is returned exactly as it was, so no
bucket is created or mutated for the identifier. -/
theorem twoTier_global_denial_frame (trl : TwoTierRateLimiter) (clientIP : String)
    (now : ℚ) (hdeny : (trl.globalBucket.Allow now).1 = false) :
    trl.Allow clientIP now
      = (false, { trl with globalBucket := (trl.globalBucket.Allow now).2 }) ∧
    (trl.Allow clientIP now).2.ipBuckets = trl.ipBuckets := by
  constructor
  · rw [TwoTierRateLimiter.Allow]
    simp [hdeny]
  · rw [TwoTierRateLimiter.Allow]
    simp [hdeny]

/-- Witness for C4: an exhausted global bucket (capacity 0) denies and the
registry stays empty. -/
theorem twoTier_global_denial_frame_witness :
    ((NewTwoTierRateLimiter 0 1 5 5 0).globalBucket.Allow 0).1 = false ∧
    (NewTwoTierRateLimiter 0 1 5 5 0).Allow "id" 0
      = (false, { NewTwoTierRateLimiter 0 1 5 5 0 with
          globalBucket := ((NewTwoTierRateLimiter 0 1 5 5 0).globalBucket.Allow 0).2 }) ∧
    ((NewTwoTierRateLimiter 0 1 5 5 0).Allow "id" 0).2.ipBuckets
      = (NewTwoTierRateLimiter 0 1 5 5 0).ipBuckets :=
  ⟨by norm_num [NewTwoTierRateLimiter, NewTokenBucket, TokenBucket.Allow,
      TokenBucket.refill, truncQ],
    (twoTier_global_denial_frame (NewTwoTierRateLimiter 0 1 5 5 0) "id" 0
      (by norm_num [NewTwoTierRateLimiter, NewTokenBucket, TokenBucket.Allow,
        TokenBucket.refill, truncQ])).1,
    (twoTier_global_denial_frame (NewTwoTierRateLimiter 0 1 5 5 0) "id" 0
      (by norm_num [NewTwoTierRateLimiter, NewTokenBucket, TokenBucket.Allow,
        TokenBucket.refill, truncQ])).2⟩

/-- An Allow call on an explicit bucket with no elapsed time. -/
theorem TokenBucket.allow_mk (cap tok rate : ℤ) (t : ℚ) :
    (⟨cap, tok, rate, t⟩ : TokenBucket).Allow t =
      if 0 < tok then (true, ⟨cap, tok - 1, rate, t⟩)
      else (false, ⟨cap, tok, rate, t⟩) := by
  simp [TokenBucket.Allow, TokenBucket.refill, truncQ]

/-- Iterate TwoTierRateLimiter.Allow n times for one identifier at a fixed
instant, counting admissions. -/
def TwoTierRateLimiter.runAllowN : TwoTierRateLimiter → String → ℚ → ℕ → ℕ × TwoTierRateLimiter
  | trl, _, _, 0 => (0, trl)
  | trl, ip, t, n + 1 =>
    let r := trl.Allow ip t
    let rest := TwoTierRateLimiter.runAllowN r.2 ip t n
    ((if r.1 then 1 else 0) + rest.1, rest.2)

/-- The limiter state after k admitted requests from one identifier with no
elapsed time: the global bucket lost k tokens, the identifier's bucket
exists and lost k tokens. -/
def midState (G : ℕ) (gr : ℤ) (P : ℕ) (pr : ℤ) (t0 : ℚ) (id : String)
    (k : ℕ) : TwoTierRateLimiter :=
  { globalBucket := ⟨(G : ℤ), (G : ℤ) - (k : ℤ), gr, t0⟩
    ipBuckets := [(id, ⟨(P : ℤ), (P : ℤ) - (k : ℤ), pr, t0⟩)]
    perIPCapacity := (P : ℤ)
    perIPRate := pr }

/-- Unfolding lemmas for runAllowN. -/
theorem TwoTierRateLimiter.runAllowN_zero (trl : TwoTierRateLimiter) (ip : String) (t : ℚ) :
    trl.runAllowN ip t 0 = (0, trl) := rfl

theorem TwoTierRateLimiter.runAllowN_succ (trl : TwoTierRateLimiter) (ip : String)
    (t : ℚ) (n : ℕ) :
    trl.runAllowN ip t (n + 1) =
      ((if (trl.Allow ip t).1 then 1 else 0) + ((trl.Allow ip t).2.runAllowN ip t n).1,
        ((trl.Allow ip t).2.runAllowN ip t n).2) := rfl

/-- getOrCreateIPBucket never touches the global bucket. -/
theorem TwoTierRateLimiter.globalBucket_getOrCreate (trl : TwoTierRateLimiter)
    (ip : String) (now : ℚ) :
    (trl.getOrCreateIPBucket ip now).2.globalBucket = trl.globalBucket := by
  unfold TwoTierRateLimiter.getOrCreateIPBucket
  cases lookupBucket trl.ipBuckets ip <;> rfl

/-- One admitted step between mid states. -/
theorem twoTier_step_mid (G P : ℕ) (gr pr : ℤ) (t0 : ℚ) (id : String) (k : ℕ)
    (hkP : k < P) (hkG : k < G) :
    (midState G gr P pr t0 id k).Allow id t0
      = (true, midState G gr P pr t0 id (k + 1)) := by
  have hg : (0 : ℤ) < (G : ℤ) - (k : ℤ) := by omega
  have hp : (0 : ℤ) < (P : ℤ) - (k : ℤ) := by omega
  simp [TwoTierRateLimiter.Allow, midState, TwoTierRateLimiter.getOrCreateIPBucket,
    lookupBucket, setBucket, TokenBucket.allow_mk, hg, hp,
    Prod.ext_iff]
  omega

/-- The denied step: at the saturated mid state the per-identifier bucket
is empty, the call is refused and the compensation restores the global
token, leaving the state fixed. -/
theorem twoTier_step_end (G P : ℕ) (gr pr : ℤ) (t0 : ℚ) (id : String)
    (hPG : P < G) :
    (midState G gr P pr t0 id P).Allow id t0
      = (false, midState G gr P pr t0 id P) := by
  have hg : (0 : ℤ) < (G : ℤ) - (P : ℤ) := by omega
  have hp : ¬ ((0 : ℤ) < (P : ℤ) - (P : ℤ)) := by omega
  have hlt : (G : ℤ) - (P : ℤ) - 1 < (G : ℤ) := by omega
  simp [TwoTierRateLimiter.Allow, midState, TwoTierRateLimiter.getOrCreateIPBucket,
    lookupBucket, setBucket, TokenBucket.allow_mk, hg, hp, hlt,
    TwoTierRateLimiter.returnGlobalToken, returnToken, Prod.ext_iff]

/-- The first call from a fresh limiter, when the per-identifier capacity
is positive: the identifier bucket is created full and consumed once. -/
theorem twoTier_step_start (G P : ℕ) (gr pr : ℤ) (t0 : ℚ) (id : String)
    (hP : 1 ≤ P) (hG : 1 ≤ G) :
    (NewTwoTierRateLimiter (G : ℤ) gr (P : ℤ) pr t0).Allow id t0
      = (true, midState G gr P pr t0 id 1) := by
  have hg : (0 : ℤ) < (G : ℤ) := by omega
  have hp : (0 : ℤ) < (P : ℤ) := by omega
  simp [TwoTierRateLimiter.Allow, NewTwoTierRateLimiter, NewTokenBucket, midState,
    TwoTierRateLimiter.getOrCreateIPBucket, lookupBucket, setBucket,
    TokenBucket.allow_mk, hg, hp, Prod.ext_iff]

/-- The first call from a fresh limiter with per-identifier capacity 0:
the identifier bucket is created empty, the call is refused and the global
token returned. -/
theorem twoTier_step_start_zero (G : ℕ) (gr pr : ℤ) (t0 : ℚ) (id : String)
    (hG : 1 ≤ G) :
    (NewTwoTierRateLimiter (G : ℤ) gr 0 pr t0).Allow id t0
      = (false, midState G gr 0 pr t0 id 0) := by
  have hg : (0 : ℤ) < (G : ℤ) := by omega
  have hlt : (G : ℤ) - 1 < (G : ℤ) := by omega
  simp [TwoTierRateLimiter.Allow, NewTwoTierRateLimiter, NewTokenBucket, midState,
    TwoTierRateLimiter.getOrCreateIPBucket, lookupBucket, setBucket,
    TokenBucket.allow_mk, hg, hlt,
    TwoTierRateLimiter.returnGlobalToken, returnToken, Prod.ext_iff]

/-- Running m + 1 further calls from a mid state with m tokens left in the
identifier bucket admits m and then denies once, landing on the saturated
state. -/
theorem twoTier_run_mid (G P : ℕ) (gr pr : ℤ) (t0 : ℚ) (id : String) :
    ∀ (m k : ℕ), 1 ≤ k → k + m = P → P < G →
      (midState G gr P pr t0 id k).runAllowN id t0 (m + 1)
        = (m, midState G gr P pr t0 id P) := by
  intro m
  induction m with
  | zero =>
      intro k hk hkm hPG
      have hkP : k = P := by omega
      subst hkP
      rw [TwoTierRateLimiter.runAllowN_succ, twoTier_step_end G k gr pr t0 id hPG]
      simp [TwoTierRateLimiter.runAllowN_zero]
  | succ m ih =>
      intro k hk hkm hPG
      have hstep := twoTier_step_mid G P gr pr t0 id k (by omega) (by omega)
      have ihr := ih (k + 1) (by omega) (by omega) hPG
      rw [TwoTierRateLimiter.runAllowN_succ, hstep]
      simp only [ihr]
      simp [Nat.add_comm]

/-- C3: (i) whenever the global bucket admits but the per-identifier
bucket denies, TwoTierRateLimiter.Allow returns false and the resulting
global bucket is exactly the compensated one (incremented, capped at its
capacity); (ii) from a fresh limiter with global capacity G and
per-identifier capacity P < G, P + 1 rapid requests from one identifier
admit exactly P, deny the rest, and leave at least G - P global tokens. -/
theorem twoTier_compensation :
    (∀ (trl : TwoTierRateLimiter) (id : String) (now : ℚ),
        (trl.globalBucket.Allow now).1 = true →
        (((({ trl with globalBucket := (trl.globalBucket.Allow now).2 } :
              TwoTierRateLimiter).getOrCreateIPBucket id now).1.Allow now)).1 = false →
        (trl.Allow id now).1 = false ∧
        (trl.Allow id now).2.globalBucket
          = returnToken (trl.globalBucket.Allow now).2) ∧
    (∀ (G P : ℕ) (gr pr : ℤ) (t0 : ℚ) (id : String), P < G →
        ((NewTwoTierRateLimiter (G : ℤ) gr (P : ℤ) pr t0).runAllowN id t0 (P + 1)).1 = P ∧
        (G : ℤ) - (P : ℤ) ≤
          ((NewTwoTierRateLimiter (G : ℤ) gr (P : ℤ) pr t0).runAllowN id t0 (P + 1)).2.globalBucket.tokens) := by
  constructor
  · intro trl id now hg hip
    refine ⟨?_, ?_⟩ <;>
      simp [TwoTierRateLimiter.Allow, hg, hip,
        TwoTierRateLimiter.returnGlobalToken, TwoTierRateLimiter.globalBucket_getOrCreate]
  · intro G P gr pr t0 id hPG
    cases P with
    | zero =>
        have hstep := twoTier_step_start_zero G gr pr t0 id (by omega)
        rw [Nat.cast_zero, TwoTierRateLimiter.runAllowN_succ, hstep]
        simp [TwoTierRateLimiter.runAllowN_zero, midState]
    | succ Q =>
        have hstart := twoTier_step_start G (Q + 1) gr pr t0 id (by omega) (by omega)
        have hrun := twoTier_run_mid G (Q + 1) gr pr t0 id Q 1 (by omega) (by omega) hPG
        rw [TwoTierRateLimiter.runAllowN_succ, hstart]
        simp only [hrun]
        simp [midState]
        omega

/-- Witness for C3: part (i) at a concrete limiter whose identifier bucket
is empty while the global bucket has tokens, and part (ii) with G = 3,
P = 1. -/
theorem twoTier_compensation_witness :
    (((⟨⟨3, 2, 1, 0⟩, [("a", ⟨1, 0, 1, 0⟩)], 1, 1⟩ : TwoTierRateLimiter).Allow "a" 0).1 = false ∧
      ((⟨⟨3, 2, 1, 0⟩, [("a", ⟨1, 0, 1, 0⟩)], 1, 1⟩ : TwoTierRateLimiter).Allow "a" 0).2.globalBucket
        = returnToken ((⟨3, 2, 1, 0⟩ : TokenBucket).Allow 0).2) ∧
    (((NewTwoTierRateLimiter ((3 : ℕ) : ℤ) 1 ((1 : ℕ) : ℤ) 1 0).runAllowN "a" 0 (1 + 1)).1 = 1 ∧
      ((3 : ℕ) : ℤ) - ((1 : ℕ) : ℤ) ≤
        ((NewTwoTierRateLimiter ((3 : ℕ) : ℤ) 1 ((1 : ℕ) : ℤ) 1 0).runAllowN "a" 0 (1 + 1)).2.globalBucket.tokens) :=
  ⟨twoTier_compensation.1 ⟨⟨3, 2, 1, 0⟩, [("a", ⟨1, 0, 1, 0⟩)], 1, 1⟩ "a" 0
      (by norm_num [TokenBucket.allow_mk])
      (by norm_num [TwoTierRateLimiter.getOrCreateIPBucket, lookupBucket,
        TokenBucket.allow_mk]),
    twoTier_compensation.2 3 1 1 1 0 "a" (by norm_num)⟩

/-- The fixed polling interval of TwoTierRateLimiter.Wait: the ticker
fires every 100 milliseconds, i.e. 1/10 second. -/
def waitInterval : ℚ := 1 / 10

/-- One scheduler event observed by the select loop in Wait: either the
context is done (canceled or past its deadline) or the ticker fires. -/
inductive WaitEvent where
  | ctxDone
  | tick
deriving Repr, DecidableEq

/-- Outcome of Wait: success stands for the nil return after an admitted
poll, ctxError for returning the context error. -/
inductive WaitResult where
  | success
  | ctxError
deriving Repr, DecidableEq

/-- TwoTierRateLimiter.Wait modelled over an event trace.  n counts the
ticks already served, so the next tick fires at t0 + (n + 1) tenths of a
second; a ctxDone event makes the select return the context error, a tick
polls Allow and returns nil on admission.  none means the trace ended with
the call still blocked. -/
def waitRun (clientIP : String) (t0 : ℚ) :
    TwoTierRateLimiter → ℕ → List WaitEvent → Option WaitResult × TwoTierRateLimiter
  | trl, _, [] => (none, trl)
  | trl, _, .ctxDone :: _ => (some .ctxError, trl)
  | trl, n, .tick :: rest =>
    let t := t0 + ((n : ℚ) + 1) * waitInterval
    let r := trl.Allow clientIP t
    if r.1 then (some .success, r.2)
    else waitRun clientIP t0 r.2 (n + 1) rest

/-- The limiter state before the (n+1)-st poll of the Wait loop, defined
directly from Allow (independently of waitRun). -/
def pollState (clientIP : String) (t0 : ℚ) (trl : TwoTierRateLimiter) : ℕ → TwoTierRateLimiter
  | 0 => trl
  | n + 1 =>
    ((pollState clientIP t0 trl n).Allow clientIP (t0 + ((n : ℚ) + 1) * waitInterval)).2

/-- The decision of the (n+1)-st poll of the Wait loop. -/
def pollResult (clientIP : String) (t0 : ℚ) (trl : TwoTierRateLimiter) (n : ℕ) : Bool :=
  ((pollState clientIP t0 trl n).Allow clientIP (t0 + ((n : ℚ) + 1) * waitInterval)).1

/-- On an all-tick trace, Wait returns nil exactly when one of the served
polls admits (stated from an arbitrary starting tick count j). -/
theorem waitRun_replicate (id : String) (t0 : ℚ) (trl : TwoTierRateLimiter) :
    ∀ (k j : ℕ),
      ((waitRun id t0 (pollState id t0 trl j) j (List.replicate k .tick)).1
          = some .success
        ↔ ∃ n, j ≤ n ∧ n < j + k ∧ pollResult id t0 trl n = true) := by
  intro k
  induction k with
  | zero =>
      intro j
      simp [waitRun]
      omega
  | succ k ih =>
      intro j
      rw [List.replicate_succ]
      by_cases hj : pollResult id t0 trl j = true
      · have : ((pollState id t0 trl j).Allow id (t0 + ((j : ℚ) + 1) * waitInterval)).1 = true := hj
        simp only [waitRun, this, if_pos]
        constructor
        · intro _
          exact ⟨j, le_refl j, by omega, hj⟩
        · intro _
          trivial
      · have hfail : ((pollState id t0 trl j).Allow id (t0 + ((j : ℚ) + 1) * waitInterval)).1 = false := by
          simpa using hj
        have hstate :
            ((pollState id t0 trl j).Allow id (t0 + ((j : ℚ) + 1) * waitInterval)).2
              = pollState id t0 trl (j + 1) := rfl
        simp only [waitRun, hfail, Bool.false_eq_true, if_neg (by simp : ¬ False), hstate]
        rw [ih (j + 1)]
        constructor
        · rintro ⟨n, h1, h2, h3⟩
          exact ⟨n, by omega, by omega, h3⟩
        · rintro ⟨n, h1, h2, h3⟩
          refine ⟨n, ?_, by omega, h3⟩
          rcases Nat.eq_or_lt_of_le h1 with heq | hlt
          · exfalso
            rw [← heq] at h3
            exact hj h3
          · omega

/-- If every served poll denies, a ctxDone event after k ticks makes Wait
return the context error (from an arbitrary starting tick count j). -/
theorem waitRun_ctx_done (id : String) (t0 : ℚ) (trl : TwoTierRateLimiter) :
    ∀ (k j : ℕ) (rest : List WaitEvent),
      (∀ n, j ≤ n → n < j + k → pollResult id t0 trl n = false) →
      (waitRun id t0 (pollState id t0 trl j) j
          (List.replicate k .tick ++ .ctxDone :: rest)).1 = some .ctxError := by
  intro k
  induction k with
  | zero =>
      intro j rest _
      simp [waitRun]
  | succ k ih =>
      intro j rest hall
      have hfail : ((pollState id t0 trl j).Allow id (t0 + ((j : ℚ) + 1) * waitInterval)).1 = false :=
        hall j (le_refl j) (by omega)
      have hstate :
          ((pollState id t0 trl j).Allow id (t0 + ((j : ℚ) + 1) * waitInterval)).2
            = pollState id t0 trl (j + 1) := rfl
      rw [List.replicate_succ, List.cons_append]
      simp only [waitRun, hfail, Bool.false_eq_true, if_neg (by simp : ¬ False), hstate]
      exact ih (j + 1) rest fun n h1 h2 => hall n (by omega) (by omega)

/-- C9: Wait polls Allow on the fixed 100ms ticker; on an all-tick trace
it returns nil exactly when some poll's Allow admits (consuming a token),
and when the context becomes done before any poll has admitted, Wait
returns the context's error instead of nil. -/
theorem twoTier_wait_spec (trl : TwoTierRateLimiter) (id : String) (t0 : ℚ) (k : ℕ) :
    ((waitRun id t0 trl 0 (List.replicate k .tick)).1 = some .success
      ↔ ∃ n, n < k ∧ pollResult id t0 trl n = true) ∧
    (∀ rest : List WaitEvent,
      (∀ n, n < k → pollResult id t0 trl n = false) →
      (waitRun id t0 trl 0 (List.replicate k .tick ++ .ctxDone :: rest)).1
        = some .ctxError) := by
  constructor
  · have h := waitRun_replicate id t0 trl k 0
    simpa using h
  · intro rest hall
    have h := waitRun_ctx_done id t0 trl k 0 rest (fun n h1 h2 => hall n (by omega))
    simpa using h

/-- Witness for C9: the success-iff instance at a fresh limiter with one
tick, and the cancellation instance where the context is done before any
tick. -/
theorem twoTier_wait_spec_witness :
    ((waitRun "a" 0 (NewTwoTierRateLimiter 2 1 2 1 0) 0 (List.replicate 1 .tick)).1
        = some .success
      ↔ ∃ n, n < 1 ∧ pollResult "a" 0 (NewTwoTierRateLimiter 2 1 2 1 0) n = true) ∧
    (waitRun "b" 0 (NewTwoTierRateLimiter 2 1 2 1 0) 0
        (List.replicate 0 .tick ++ .ctxDone :: [])).1 = some .ctxError :=
  ⟨(twoTier_wait_spec (NewTwoTierRateLimiter 2 1 2 1 0) "a" 0 1).1,
    (twoTier_wait_spec (NewTwoTierRateLimiter 2 1 2 1 0) "b" 0 0).2 []
      (by intro n hn; exact absurd hn (Nat.not_lt_zero n))⟩

/-- models.AdvertiserInfo: one advertiser (exchange) domain with its
occurrence count. -/
structure AdvertiserInfo where
  domain : String
  count : ℤ
deriving Repr, DecidableEq

/-- The comparator passed to sort.Slice in buildAnalysis and
aggregateResults: count descending, ties broken by domain ascending. -/
def advLess (a b : AdvertiserInfo) : Bool :=
  decide (b.count < a.count) || (decide (a.count = b.count) && decide (a.domain < b.domain))

/-- Insert into a list already sorted by advLess. -/
def insertAdv (x : AdvertiserInfo) : List AdvertiserInfo → List AdvertiserInfo
  | [] => [x]
  | y :: ys => if advLess y x then y :: insertAdv x ys else x :: y :: ys

/-- The sort.Slice call, realised as insertion sort with the source's
comparator (the comparator is antisymmetric on the aggregated entries, so
any comparison sort yields this output). -/
def sortAdvertisers : List AdvertiserInfo → List AdvertiserInfo
  | [] => []
  | x :: xs => insertAdv x (sortAdvertisers xs)

/-- The non-strict order the sorted output satisfies: count descending
with ties broken by domain ascending. -/
def advOrder (a b : AdvertiserInfo) : Prop :=
  b.count < a.count ∨ (a.count = b.count ∧ a.domain ≤ b.domain)

/-- models.DomainResult (timestamp and cached flag are not modelled; no
claim mentions them). -/
structure DomainResult where
  domain : String
  totalAdvertisers : ℤ
  advertisers : List AdvertiserInfo
  success : Bool
  error : String
deriving Repr, DecidableEq

/-- models.BatchSummary. -/
structure BatchSummary where
  total : ℕ
  succeeded : ℕ
  failed : ℕ
deriving Repr, DecidableEq

/-- models.BatchAnalysisResponse (timestamp not modelled). -/
structure BatchAnalysisResponse where
  results : List DomainResult
  summary : BatchSummary
  advertisers : List AdvertiserInfo
  totalAdvertisers : ℤ
deriving Repr, DecidableEq

/-- The per-domain worker of Service.AnalyzeDomains.  The call to
Service.AnalyzeDomain (cache lookup, fetch, parse, CountAdvertisers) is
abstracted by an outcome oracle mapping each domain to its error string or
to its advertiser count table; on success the worker copies the fields of
buildAnalysis: totalAdvertisers is the sum of the table's counts and the
advertiser list is the table sorted by the comparator. -/
def mkDomainResult (outcome : String → Except String (List AdvertiserInfo))
    (d : String) : DomainResult :=
  match outcome d with
  | .error e =>
    { domain := d, totalAdvertisers := 0, advertisers := [], success := false, error := e }
  | .ok counts =>
    { domain := d
      totalAdvertisers := (counts.map (fun a => a.count)).sum
      advertisers := sortAdvertisers counts
      success := true
      error := "" }

/-- One update of the aggregate advertiser table:
advertiserCounts[advertiser.Domain] += advertiser.Count (Go map modelled
as an association list; a missing key starts from zero). -/
def bump : List (String × ℤ) → String → ℤ → List (String × ℤ)
  | [], key, v => [(key, v)]
  | (k, v0) :: rest, key, v =>
    if k = key then (k, v0 + v) :: rest else (k, v0) :: bump rest key v

/-- Fold one successful result's advertisers into the aggregate table. -/
def addAdvCounts (m : List (String × ℤ)) (advs : List AdvertiserInfo) :
    List (String × ℤ) :=
  advs.foldl (fun acc a => bump acc a.domain a.count) m

/-- The aggregate advertiser table built by the aggregator loop: only
successful results contribute. -/
def aggCounts (results : List DomainResult) : List (String × ℤ) :=
  results.foldl (fun m r => if r.success then addAdvCounts m r.advertisers else m) []

/-- Service.aggregateResults: collects the results, counts successes and
failures, converts the aggregate table to a sorted list and sums its
values. -/
def aggregateResults (results : List DomainResult) (totalDomains : ℕ) :
    BatchAnalysisResponse :=
  { results := results
    summary :=
      { total := totalDomains
        succeeded := results.countP (fun r => r.success)
        failed := results.countP (fun r => !r.success) }
    advertisers :=
      sortAdvertisers ((aggCounts results).map (fun p => { domain := p.1, count := p.2 }))
    totalAdvertisers := ((aggCounts results).map (fun p => p.2)).sum }

/-- Service.AnalyzeDomains.  The concurrent workers each contribute
exactly one result; completion order is unspecified in the source, so the
model uses submission order (every claim proved below is order
independent).  The second component is the returned error, always nil in
the source. -/
def AnalyzeDomains (outcome : String → Except String (List AdvertiserInfo))
    (domains : List String) : BatchAnalysisResponse × Option String :=
  if domains.isEmpty then
    ({ results := []
       summary := { total := 0, succeeded := 0, failed := 0 }
       advertisers := []
       totalAdvertisers := 0 }, none)
  else
    (aggregateResults (domains.map (mkDomainResult outcome)) domains.length, none)

/-- What the HTTP batch handler writes: an error response with a status
code, or the analysis response with a status code. -/
inductive BatchHandlerReply where
  | clientError (status : ℕ) (err msg : String)
  | ok (status : ℕ) (resp : BatchAnalysisResponse)
deriving Repr, DecidableEq

/-- Handler.getBatchStatusCode: 200 when nothing failed, 400 when nothing
succeeded, 207 Multi-Status otherwise. -/
def getBatchStatusCode (resp : BatchAnalysisResponse) : ℕ :=
  if resp.summary.failed = 0 then 200
  else if resp.summary.succeeded = 0 then 400
  else 207

/-- Handler.AnalyzeBatchDomains after a successfully decoded request body:
validation first, then the service call.  The boolean records whether
AnalyzeDomains was invoked. -/
def AnalyzeBatchDomains (outcome : String → Except String (List AdvertiserInfo))
    (requestDomains : List String) : BatchHandlerReply × Bool :=
  if requestDomains.length = 0 then
    (.clientError 400 "domains array cannot be empty" "", false)
  else if requestDomains.length > 100 then
    (.clientError 400 "too many domains" "Maximum 100 domains per batch", false)
  else
    match AnalyzeDomains outcome requestDomains with
    | (_, some e) => (.clientError 500 "batch analysis failed" e, true)
    | (resp, none) => (.ok (getBatchStatusCode resp) resp, true)

/-- The domain of a produced result is the input domain. -/
theorem mkDomainResult_domain (outcome : String → Except String (List AdvertiserInfo))
    (d : String) : (mkDomainResult outcome d).domain = d := by
  unfold mkDomainResult
  cases outcome d <;> rfl

/-- C8: AnalyzeDomains never returns an error: the error component is nil
for every context-free input, and each per-domain failure is captured in
its own DomainResult (success false with the error message) while
successful pipelines yield success true. -/
theorem analyzeDomains_never_errors (outcome : String → Except String (List AdvertiserInfo))
    (domains : List String) :
    (AnalyzeDomains outcome domains).2 = none ∧
    ∀ r ∈ (AnalyzeDomains outcome domains).1.results,
      (∀ e, outcome r.domain = .error e → r.success = false ∧ r.error = e) ∧
      (∀ counts, outcome r.domain = .ok counts → r.success = true) := by
  constructor
  · unfold AnalyzeDomains
    by_cases h : domains.isEmpty <;> simp [h]
  · intro r hr
    have hres : r ∈ domains.map (mkDomainResult outcome) := by
      unfold AnalyzeDomains at hr
      by_cases h : domains.isEmpty
      · simp [h] at hr
      · simpa [h, aggregateResults] using hr
    rw [List.mem_map] at hres
    obtain ⟨d, _, rfl⟩ := hres
    rw [mkDomainResult_domain]
    cases houtcome : outcome d with
    | error e =>
        constructor
        · intro e2 he2
          cases he2
          simp [mkDomainResult, houtcome]
        · intro counts hc
          cases hc
    | ok counts =>
        constructor
        · intro e2 he2
          cases he2
        · intro counts2 hc
          simp [mkDomainResult, houtcome]

/-- Oracle used by the witnesses: bad.com fails with message boom, every
other domain yields one advertiser entry. -/
def sampleOutcome (d : String) : Except String (List AdvertiserInfo) :=
  if d = "bad.com" then Except.error "boom"
  else Except.ok [{ domain := "x.com", count := 2 }]

/-- Witness for C8 at a two-domain input where one pipeline fails and one
succeeds. -/
theorem analyzeDomains_never_errors_witness :
    (AnalyzeDomains sampleOutcome ["bad.com", "good.com"]).2 = none ∧
    ∀ r ∈ (AnalyzeDomains sampleOutcome ["bad.com", "good.com"]).1.results,
      (∀ e, sampleOutcome r.domain = Except.error e → r.success = false ∧ r.error = e) ∧
      (∀ counts, sampleOutcome r.domain = Except.ok counts → r.success = true) :=
  analyzeDomains_never_errors sampleOutcome ["bad.com", "good.com"]

/-- C10: the batch handler validates the decoded request before any
orchestration: an empty domains array is answered with HTTP 400 and the
error text about emptiness, more than 100 domains with HTTP 400 and the
too-many text, and in both cases the analysis service is never invoked. -/
theorem handler_batch_validation (outcome : String → Except String (List AdvertiserInfo))
    (ds : List String) :
    (ds.length = 0 →
      AnalyzeBatchDomains outcome ds
        = (.clientError 400 "domains array cannot be empty" "", false)) ∧
    (100 < ds.length →
      AnalyzeBatchDomains outcome ds
        = (.clientError 400 "too many domains" "Maximum 100 domains per batch", false)) := by
  constructor
  · intro h
    simp [AnalyzeBatchDomains, h]
  · intro h
    have h0 : ¬ (ds.length = 0) := by omega
    simp [AnalyzeBatchDomains, h0, h]

/-- Witness for C10 at the empty request and at a 101-domain request. -/
theorem handler_batch_validation_witness :
    (([] : List String).length = 0 ∧
      AnalyzeBatchDomains (fun _ => Except.error "e") []
        = (.clientError 400 "domains array cannot be empty" "", false)) ∧
    (100 < (List.replicate 101 "d.com").length ∧
      AnalyzeBatchDomains (fun _ => Except.error "e") (List.replicate 101 "d.com")
        = (.clientError 400 "too many domains" "Maximum 100 domains per batch", false)) :=
  ⟨⟨rfl, (handler_batch_validation (fun _ => Except.error "e") []).1 rfl⟩,
    ⟨by simp, (handler_batch_validation (fun _ => Except.error "e")
        (List.replicate 101 "d.com")).2 (by simp)⟩⟩

/-- Counting a predicate and its negation covers the whole list (the
aggregator increments exactly one of the two counters per result). -/
theorem countP_not_add (l : List DomainResult) (p : DomainResult → Bool) :
    l.countP p + l.countP (fun r => !p r) = l.length := by
  induction l with
  | nil => rfl
  | cons x xs ih =>
      by_cases h : p x <;> simp [List.countP_cons, h] <;> omega

/-- The produced results carry exactly the input domains, in order. -/
theorem map_domain_mkDomainResult (outcome : String → Except String (List AdvertiserInfo))
    (domains : List String) :
    (domains.map (mkDomainResult outcome)).map (fun r => r.domain) = domains := by
  induction domains with
  | nil => rfl
  | cons d ds ih => simp [mkDomainResult_domain, ih]

/-- C6 (amended): for every input list of length N, AnalyzeDomains yields
summary total N, succeeded + failed = N, and exactly N DomainResults whose
domains are exactly the input domains, hence pairwise distinct whenever
the input domains are distinct; the empty input returns the zero-valued
summary with empty aggregates, independently of the pipeline oracle. -/
theorem analyzeDomains_completeness (outcome : String → Except String (List AdvertiserInfo))
    (domains : List String) :
    (AnalyzeDomains outcome domains).1.summary.total = domains.length ∧
    (AnalyzeDomains outcome domains).1.summary.succeeded
      + (AnalyzeDomains outcome domains).1.summary.failed = domains.length ∧
    (AnalyzeDomains outcome domains).1.results.length = domains.length ∧
    (AnalyzeDomains outcome domains).1.results.map (fun r => r.domain) = domains ∧
    (domains.Nodup →
      ((AnalyzeDomains outcome domains).1.results.map (fun r => r.domain)).Nodup) ∧
    (domains = [] →
      (AnalyzeDomains outcome domains).1
        = { results := []
            summary := { total := 0, succeeded := 0, failed := 0 }
            advertisers := []
            totalAdvertisers := 0 }) := by
  by_cases hemp : domains.isEmpty
  · have hnil : domains = [] := List.isEmpty_iff.mp hemp
    subst hnil
    refine ⟨rfl, rfl, rfl, rfl, fun _ => List.nodup_nil, fun _ => rfl⟩
  · have hmap := map_domain_mkDomainResult outcome domains
    refine ⟨?_, ?_, ?_, ?_, ?_, ?_⟩
    · simp [AnalyzeDomains, hemp, aggregateResults]
    · simp only [AnalyzeDomains, hemp, aggregateResults, Bool.false_eq_true, if_false]
      rw [countP_not_add]
      simp
    · simp [AnalyzeDomains, hemp, aggregateResults]
    · simpa [AnalyzeDomains, hemp, aggregateResults] using hmap
    · intro hnd
      have : (AnalyzeDomains outcome domains).1.results.map (fun r => r.domain) = domains := by
        simpa [AnalyzeDomains, hemp, aggregateResults] using hmap
      rw [this]
      exact hnd
    · intro hnil
      rw [hnil] at hemp
      simp at hemp

/-- Counterexample for C6 as stated: with a duplicated input domain the
two produced results carry the same domain, so the results are not
pairwise distinct. -/
theorem analyzeDomains_distinct_counterexample :
    ¬ (((AnalyzeDomains (fun _ => Except.error "boom") ["a.com", "a.com"]).1.results.map
        (fun r => r.domain)).Nodup) := by
  have hmap := map_domain_mkDomainResult (fun _ => Except.error "boom") ["a.com", "a.com"]
  have hres : (AnalyzeDomains (fun _ => Except.error "boom") ["a.com", "a.com"]).1.results.map
      (fun r => r.domain) = ["a.com", "a.com"] := by
    simpa [AnalyzeDomains, aggregateResults] using hmap
  rw [hres]
  simp

/-- Witness for C6 at a concrete two-domain input with distinct domains. -/
theorem analyzeDomains_completeness_witness :
    (AnalyzeDomains sampleOutcome ["bad.com", "good.com"]).1.summary.total = 2 ∧
    ((AnalyzeDomains sampleOutcome ["bad.com", "good.com"]).1.results.map
      (fun r => r.domain)).Nodup :=
  ⟨(analyzeDomains_completeness sampleOutcome ["bad.com", "good.com"]).1,
    (analyzeDomains_completeness sampleOutcome ["bad.com", "good.com"]).2.2.2.2.1
      (by simp)⟩

/-- A strictly smaller element under the comparator precedes in the
output order. -/
theorem advOrder_of_advLess {a b : AdvertiserInfo} (h : advLess a b = true) :
    advOrder a b := by
  unfold advLess at h
  simp only [Bool.or_eq_true, Bool.and_eq_true, decide_eq_true_eq] at h
  rcases h with h | ⟨h1, h2⟩
  · exact Or.inl h
  · exact Or.inr ⟨h1, le_of_lt h2⟩

/-- The comparator failing in one direction yields the output order in the
other. -/
theorem advOrder_of_not_advLess {a b : AdvertiserInfo} (h : advLess b a = false) :
    advOrder a b := by
  have h2 : ¬ (advLess b a = true) := by simp [h]
  unfold advLess at h2
  simp only [Bool.or_eq_true, Bool.and_eq_true, decide_eq_true_eq, not_or, not_and] at h2
  obtain ⟨hnc, hncd⟩ := h2
  rcases lt_or_le b.count a.count with hlt | hle
  · exact Or.inl hlt
  · have heq : a.count = b.count := by omega
    refine Or.inr ⟨heq, ?_⟩
    have := hncd heq.symm
    exact le_of_not_lt this

/-- The output order is transitive. -/
theorem advOrder_trans {a b c : AdvertiserInfo} (h1 : advOrder a b) (h2 : advOrder b c) :
    advOrder a c := by
  rcases h1 with h1 | ⟨h1e, h1d⟩ <;> rcases h2 with h2 | ⟨h2e, h2d⟩
  · exact Or.inl (by omega)
  · exact Or.inl (by omega)
  · exact Or.inl (by omega)
  · exact Or.inr ⟨by omega, le_trans h1d h2d⟩

/-- Membership after an insertion. -/
theorem mem_insertAdv {z x : AdvertiserInfo} {l : List AdvertiserInfo} :
    z ∈ insertAdv x l ↔ z = x ∨ z ∈ l := by
  induction l with
  | nil => simp [insertAdv]
  | cons y ys ih =>
      unfold insertAdv
      by_cases h : advLess y x = true
      · simp only [h, if_pos, List.mem_cons, ih]
        tauto
      · simp [h]

/-- Insertion preserves sortedness in the output order. -/
theorem sorted_insertAdv (x : AdvertiserInfo) {l : List AdvertiserInfo}
    (h : List.Sorted advOrder l) : List.Sorted advOrder (insertAdv x l) := by
  induction l with
  | nil => simp [insertAdv]
  | cons y ys ih =>
      rw [List.sorted_cons] at h
      obtain ⟨hy, hys⟩ := h
      unfold insertAdv
      by_cases hl : advLess y x = true
      · simp only [hl, if_pos]
        rw [List.sorted_cons]
        refine ⟨?_, ih hys⟩
        intro z hz
        rcases mem_insertAdv.mp hz with rfl | hz2
        · exact advOrder_of_advLess hl
        · exact hy z hz2
      · have hxy : advOrder x y := advOrder_of_not_advLess (by simpa using hl)
        simp only [hl, if_neg, Bool.false_eq_true, not_false_iff]
        rw [List.sorted_cons]
        refine ⟨?_, List.sorted_cons.mpr ⟨hy, hys⟩⟩
        intro z hz
        rcases List.mem_cons.mp hz with rfl | hz2
        · exact hxy
        · exact advOrder_trans hxy (hy z hz2)

/-- The sorted advertiser list is sorted by count descending, ties broken
by domain ascending. -/
theorem sorted_sortAdvertisers (l : List AdvertiserInfo) :
    List.Sorted advOrder (sortAdvertisers l) := by
  induction l with
  | nil => simp [sortAdvertisers]
  | cons x xs ih => exact sorted_insertAdv x ih

/-- Insertion is a permutation. -/
theorem perm_insertAdv (x : AdvertiserInfo) (l : List AdvertiserInfo) :
    (insertAdv x l).Perm (x :: l) := by
  induction l with
  | nil => exact List.Perm.refl _
  | cons y ys ih =>
      unfold insertAdv
      by_cases h : advLess y x = true
      · simp only [h, if_pos]
        exact (ih.cons y).trans (List.Perm.swap x y ys)
      · simp [h]

/-- Sorting is a permutation. -/
theorem perm_sortAdvertisers (l : List AdvertiserInfo) :
    (sortAdvertisers l).Perm l := by
  induction l with
  | nil => exact List.Perm.refl _
  | cons x xs ih => exact (perm_insertAdv x (sortAdvertisers xs)).trans (ih.cons x)

/-- The count a list attributes to one advertiser domain: sum of the
counts of its entries with that domain. -/
def listCount (l : List AdvertiserInfo) (adv : String) : ℤ :=
  ((l.filter (fun a => decide (a.domain = adv))).map (fun a => a.count)).sum

/-- Sum of all counts in an advertiser list. -/
def listTotal (l : List AdvertiserInfo) : ℤ :=
  (l.map (fun a => a.count)).sum

/-- The value the aggregate table attributes to one key (entries with that
key summed, so it is the map value once keys are unique, and robust to
duplicates). -/
def sumValues (m : List (String × ℤ)) (k : String) : ℤ :=
  ((m.filter (fun p => decide (p.1 = k))).map (fun p => p.2)).sum

/-- Sum of all values of the aggregate table. -/
def totalValues (m : List (String × ℤ)) : ℤ :=
  (m.map (fun p => p.2)).sum

theorem listCount_perm {l1 l2 : List AdvertiserInfo} (h : l1.Perm l2) (adv : String) :
    listCount l1 adv = listCount l2 adv :=
  ((h.filter _).map _).sum_eq

theorem listTotal_perm {l1 l2 : List AdvertiserInfo} (h : l1.Perm l2) :
    listTotal l1 = listTotal l2 :=
  (h.map _).sum_eq

theorem listCount_cons (a : AdvertiserInfo) (l : List AdvertiserInfo) (adv : String) :
    listCount (a :: l) adv = (if a.domain = adv then a.count else 0) + listCount l adv := by
  unfold listCount
  by_cases h : a.domain = adv <;> simp [h]

theorem listTotal_cons (a : AdvertiserInfo) (l : List AdvertiserInfo) :
    listTotal (a :: l) = a.count + listTotal l := by
  simp [listTotal]

theorem sumValues_cons (k0 : String) (v0 : ℤ) (l : List (String × ℤ)) (k : String) :
    sumValues ((k0, v0) :: l) k = (if k0 = k then v0 else 0) + sumValues l k := by
  unfold sumValues
  by_cases h : k0 = k <;> simp [h]

theorem totalValues_cons (k0 : String) (v0 : ℤ) (l : List (String × ℤ)) :
    totalValues ((k0, v0) :: l) = v0 + totalValues l := by
  simp [totalValues]

/-- One bump adds its increment to the bumped key and nothing else. -/
theorem sumValues_bump (m : List (String × ℤ)) (key : String) (v : ℤ) (k : String) :
    sumValues (bump m key v) k = sumValues m k + (if key = k then v else 0) := by
  induction m with
  | nil =>
      unfold bump
      by_cases h : key = k <;> simp [sumValues_cons, sumValues, h]
  | cons p rest ih =>
      obtain ⟨k0, v0⟩ := p
      unfold bump
      by_cases h : k0 = key
      · subst h
        by_cases h2 : k0 = k
        · simp [sumValues_cons, h2]
          ring
        · simp [sumValues_cons, h2]
      · simp only [h, if_neg, not_false_iff]
        by_cases h2 : k0 = k
        · simp [sumValues_cons, h2, ih]
          ring
        · simp [sumValues_cons, h2, ih]

/-- One bump adds its increment to the table total. -/
theorem totalValues_bump (m : List (String × ℤ)) (key : String) (v : ℤ) :
    totalValues (bump m key v) = totalValues m + v := by
  induction m with
  | nil => simp [bump, totalValues]
  | cons p rest ih =>
      obtain ⟨k0, v0⟩ := p
      unfold bump
      by_cases h : k0 = key <;> simp [h, totalValues_cons, ih] <;> ring

/-- Folding one result's advertisers adds that result's per-domain count. -/
theorem sumValues_addAdvCounts (advs : List AdvertiserInfo) :
    ∀ (m : List (String × ℤ)) (k : String),
      sumValues (addAdvCounts m advs) k = sumValues m k + listCount advs k := by
  induction advs with
  | nil =>
      intro m k
      simp [addAdvCounts, listCount]
  | cons a rest ih =>
      intro m k
      have hstep : addAdvCounts m (a :: rest) = addAdvCounts (bump m a.domain a.count) rest := rfl
      rw [hstep, ih, sumValues_bump, listCount_cons]
      ring

/-- Folding one result's advertisers adds that result's total count. -/
theorem totalValues_addAdvCounts (advs : List AdvertiserInfo) :
    ∀ (m : List (String × ℤ)),
      totalValues (addAdvCounts m advs) = totalValues m + listTotal advs := by
  induction advs with
  | nil =>
      intro m
      simp [addAdvCounts, listTotal]
  | cons a rest ih =>
      intro m
      have hstep : addAdvCounts m (a :: rest) = addAdvCounts (bump m a.domain a.count) rest := rfl
      rw [hstep, ih, totalValues_bump, listTotal_cons]
      ring

/-- The aggregator loop: per-domain count of the table equals the sum of
the successful results' per-domain counts (failed results contribute
nothing), for any starting table. -/
theorem sumValues_aggFold (results : List DomainResult) :
    ∀ (m : List (String × ℤ)) (k : String),
      sumValues (results.foldl
          (fun m r => if r.success then addAdvCounts m r.advertisers else m) m) k
        = sumValues m k
          + (results.map (fun r => if r.success then listCount r.advertisers k else 0)).sum := by
  induction results with
  | nil =>
      intro m k
      simp
  | cons r rest ih =>
      intro m k
      simp only [List.foldl_cons, List.map_cons, List.sum_cons]
      by_cases h : r.success
      · rw [if_pos h, if_pos h, ih, sumValues_addAdvCounts]
        ring
      · rw [if_neg h, if_neg h, ih]
        ring

/-- The aggregator loop: table total equals the sum of the successful
results' totals, for any starting table. -/
theorem totalValues_aggFold (results : List DomainResult) :
    ∀ (m : List (String × ℤ)),
      totalValues (results.foldl
          (fun m r => if r.success then addAdvCounts m r.advertisers else m) m)
        = totalValues m
          + (results.map (fun r => if r.success then listTotal r.advertisers else 0)).sum := by
  induction results with
  | nil =>
      intro m
      simp
  | cons r rest ih =>
      intro m
      simp only [List.foldl_cons, List.map_cons, List.sum_cons]
      by_cases h : r.success
      · rw [if_pos h, if_pos h, ih, totalValues_addAdvCounts]
        ring
      · rw [if_neg h, if_neg h, ih]
        ring

/-- Summing a guarded map equals summing over the filtered list. -/
theorem sum_if_success (results : List DomainResult) (f : DomainResult → ℤ) :
    (results.map (fun r => if r.success then f r else 0)).sum
      = ((results.filter (fun r => r.success)).map f).sum := by
  induction results with
  | nil => rfl
  | cons r rest ih =>
      by_cases h : r.success <;> simp [h, ih]

/-- The per-domain count of the table entries, read back as an advertiser
list, equals the table's per-key sum. -/
theorem listCount_entries (m : List (String × ℤ)) (k : String) :
    listCount (m.map (fun p => { domain := p.1, count := p.2 })) k = sumValues m k := by
  induction m with
  | nil => rfl
  | cons p rest ih =>
      obtain ⟨k0, v0⟩ := p
      rw [List.map_cons, listCount_cons, sumValues_cons, ih]

/-- The total of the table entries, read back as an advertiser list,
equals the table's value total. -/
theorem listTotal_entries (m : List (String × ℤ)) :
    listTotal (m.map (fun p => { domain := p.1, count := p.2 })) = totalValues m := by
  induction m with
  | nil => rfl
  | cons p rest ih =>
      obtain ⟨k0, v0⟩ := p
      rw [List.map_cons, listTotal_cons, totalValues_cons, ih]

/-- A successful result built by the worker has totalAdvertisers equal to
the sum of its advertiser counts. -/
theorem mkDomainResult_total (outcome : String → Except String (List AdvertiserInfo))
    (d : String) (h : (mkDomainResult outcome d).success = true) :
    (mkDomainResult outcome d).totalAdvertisers
      = listTotal (mkDomainResult outcome d).advertisers := by
  cases ho : outcome d with
  | error e =>
      rw [mkDomainResult, ho] at h
      cases h
  | ok counts =>
      rw [mkDomainResult, ho]
      have hperm := listTotal_perm (perm_sortAdvertisers counts)
      simpa [listTotal] using hperm.symm

/-- Specification of aggregateResults: per-domain counts of the output
list are the sums over successful results, the output total is the sum of
successful totals, and the output list is sorted. -/
theorem aggregateResults_spec (results : List DomainResult) (n : ℕ)
    (hprop : ∀ r ∈ results, r.success = true →
      r.totalAdvertisers = listTotal r.advertisers) :
    (∀ adv : String,
      listCount (aggregateResults results n).advertisers adv
        = ((results.filter (fun r => r.success)).map
            (fun r => listCount r.advertisers adv)).sum) ∧
    (aggregateResults results n).totalAdvertisers
      = ((results.filter (fun r => r.success)).map (fun r => r.totalAdvertisers)).sum ∧
    List.Sorted advOrder (aggregateResults results n).advertisers := by
  refine ⟨?_, ?_, ?_⟩
  · intro adv
    have h1 : (aggregateResults results n).advertisers
        = sortAdvertisers ((aggCounts results).map (fun p => { domain := p.1, count := p.2 })) := rfl
    rw [h1, listCount_perm (perm_sortAdvertisers _) adv, listCount_entries]
    unfold aggCounts
    rw [sumValues_aggFold, sum_if_success]
    simp [sumValues]
  · have h1 : (aggregateResults results n).totalAdvertisers
        = totalValues (aggCounts results) := rfl
    rw [h1]
    unfold aggCounts
    rw [totalValues_aggFold, sum_if_success]
    have hmap : (results.filter (fun r => r.success)).map (fun r => listTotal r.advertisers)
        = (results.filter (fun r => r.success)).map (fun r => r.totalAdvertisers) := by
      refine List.map_congr_left ?_
      intro r hr
      have hm := List.mem_filter.mp hr
      exact (hprop r hm.1 (by simpa using hm.2)).symm
    rw [hmap]
    simp [totalValues]
  · exact sorted_sortAdvertisers _

/-- C7: in the batch response, the advertiser list attributes to every
advertiser domain the sum of that domain's counts over succeeded results
only, the aggregate TotalAdvertisers is the sum of totalAdvertisers over
succeeded results, and the list is sorted by count descending with ties
broken by advertiser domain ascending. -/
theorem analyzeDomains_aggregation (outcome : String → Except String (List AdvertiserInfo))
    (domains : List String) :
    (∀ adv : String,
      listCount (AnalyzeDomains outcome domains).1.advertisers adv
        = (((AnalyzeDomains outcome domains).1.results.filter (fun r => r.success)).map
            (fun r => listCount r.advertisers adv)).sum) ∧
    (AnalyzeDomains outcome domains).1.totalAdvertisers
      = (((AnalyzeDomains outcome domains).1.results.filter (fun r => r.success)).map
          (fun r => r.totalAdvertisers)).sum ∧
    List.Sorted advOrder (AnalyzeDomains outcome domains).1.advertisers := by
  by_cases hemp : domains.isEmpty
  · rw [List.isEmpty_iff.mp hemp]
    refine ⟨fun adv => rfl, rfl, List.sorted_nil⟩
  · have hresp : (AnalyzeDomains outcome domains).1
        = aggregateResults (domains.map (mkDomainResult outcome)) domains.length := by
      simp [AnalyzeDomains, hemp]
    have hprop : ∀ r ∈ domains.map (mkDomainResult outcome), r.success = true →
        r.totalAdvertisers = listTotal r.advertisers := by
      intro r hr
      rw [List.mem_map] at hr
      obtain ⟨d, _, rfl⟩ := hr
      exact mkDomainResult_total outcome d
    have hspec := aggregateResults_spec (domains.map (mkDomainResult outcome))
      domains.length hprop
    have hres : (aggregateResults (domains.map (mkDomainResult outcome))
        domains.length).results = domains.map (mkDomainResult outcome) := rfl
    rw [hresp, hres]
    exact hspec

end AdsTxt
